import Mathlib

/-!
Verification of the composition engine of screwdriver-cd/template-validator.

The development shallowly embeds `src/index.js` (`flattenTemplate`) and
`src/lib/helper.js` (`merge`, `mergeTemplateIntoJob`).  JavaScript objects
are modelled as association lists with unique keys, JS arrays as lists,
absent fields as `Option.none` (or `[]` for fields the code defaults to an
empty array/object).  Step commands are modelled as opaque strings; the
JS-truthiness of a present step value is modelled as presence of the step.

Locked-step handling and the `parameters` merge are exercised by the test
suite but their implementation is not part of the source tree snapshot;
those parts are modelled from the spec in clearly marked definitions below.
-/

namespace TemplateValidator

/-- JS `target[k] = v` on an object modelled as an association list: update
the value at the first occurrence of `k` in place, or append a new pair. -/
def setKey : List (String × String) → String → String → List (String × String)
  | [], k, v => [(k, v)]
  | p :: rest, k, v => if p.1 = k then (k, v) :: rest else p :: setKey rest k v

/-- JS property lookup `m[k]` (first occurrence wins on an association list
with unique keys). -/
def getKey : List (String × String) → String → Option String
  | [], _ => none
  | p :: rest, k => if p.1 = k then some p.2 else getKey rest k

/-- JS `Object.assign(target, source)` (also flat `Hoek.merge`): assign every
source pair into the target, left to right; source values win. -/
def objAssign (target source : List (String × String)) : List (String × String) :=
  source.foldl (fun acc p => setKey acc p.1 p.2) target

/-- The value the key `k` ends up bound to after assigning all pairs of `m`
in order (the last occurrence wins), `none` if `k` never occurs. -/
def getLastKey (m : List (String × String)) (k : String) : Option String :=
  m.foldl (fun acc p => if p.1 = k then some p.2 else acc) none

/-- One step of JS `new Set` construction: add `x` unless already present. -/
def jsAdd (acc : List String) (x : String) : List String :=
  if x ∈ acc then acc else acc ++ [x]

/-- JS `[...new Set(l)]`: remove duplicates, keeping the first occurrence of
each element and the relative order. -/
def jsSet (l : List String) : List String :=
  l.foldl jsAdd []

/-- JS truthiness of an optional string (`undefined` and `""` are falsy). -/
def jsTruthy : Option String → Bool
  | some s => s ≠ ""
  | none => false

/-- A named step.  The source stores steps as one-key objects
`{ [name]: value }`; the value carries the command and (in the format used
by the locked-step feature) an optional `locked` flag. -/
structure Step where
  name : String
  command : String
  locked : Bool := false
deriving Repr, DecidableEq

/-- A `sourcePaths` value as it may appear in a config: either a scalar
string or an array of strings (`Array.isArray` distinguishes the two). -/
inductive SPVal where
  | scalar (s : String)
  | list (l : List String)
deriving Repr, DecidableEq

/-- `sourcePaths` normalization from `src/lib/helper.js`:
`x = Array.isArray(x) ? x : [x]`, with the absent field defaulting to `[]`. -/
def normSP : Option SPVal → List String
  | none => []
  | some (.scalar s) => [s]
  | some (.list l) => l

/-- The job configuration of a template (`config` in the YAML document).
Maps of "any" values (`annotations`, `settings`, `parameters`) are modelled
with string values; the merge never inspects them. -/
structure JobConfig where
  annotations : List (String × String) := []
  environment : List (String × String) := []
  settings : List (String × String) := []
  image : Option String := none
  requires : Option (List String) := none
  blockedBy : Option (List String) := none
  freezeWindows : Option (List String) := none
  cache : Option Bool := none
  secrets : List String := []
  sourcePaths : Option SPVal := none
  steps : List Step := []
  order : Option (List String) := none
  template : Option String := none
  templateId : Option Nat := none
  parameters : List (String × String) := []
deriving Repr, DecidableEq

/-- `key.startsWith('teardown-')` from the source, stated on the character
list underlying the string. -/
def isTeardown (n : String) : Bool :=
  "teardown-".data.isPrefixOf n.data

/-- The name-keyed lookup the source builds with
`steps.reduce((obj, item) => { obj[key] = item[key]; ... })`: assigning every
entry in order makes the last occurrence of a name win. -/
def findStep (steps : List Step) (n : String) : Option Step :=
  steps.reverse.find? (fun s => s.name == n)

/-- First step with the given name in a merged steps list (step names are
unique within one list, so the first occurrence wins on lookup). -/
def stepCommand (steps : List Step) (n : String) : Option String :=
  (steps.find? (fun s => s.name == n)).map Step.command

/-- The warning for a name in `order` that neither side defines
(`src/lib/helper.js` line 263). -/
def skipWarning (n : String) : String :=
  n ++ " step definition not found; skipping"

/-- The body of the `order` loop of `merge` (`src/lib/helper.js` lines
253-273): walk the `order` names; for each one prefer the child's step, then
the parent's, else warn; collect teardown-named steps separately.  Returns
(merged non-teardown steps, teardown steps, warnings). -/
def orderWalk (oldF newF : String → Option Step) :
    List String → List Step × List Step × List String
  | [] => ([], [], [])
  | n :: rest =>
    let r := orderWalk oldF newF rest
    match oldF n with
    | some s =>
      if isTeardown n then (r.1, s :: r.2.1, r.2.2) else (s :: r.1, r.2.1, r.2.2)
    | none =>
      match newF n with
      | some s =>
        if isTeardown n then (r.1, s :: r.2.1, r.2.2) else (s :: r.1, r.2.1, r.2.2)
      | none => (r.1, r.2.1, skipWarning n :: r.2.2)

/-- `merge`'s order mode (`src/lib/helper.js` lines 244-275):
`newJob.steps = mergedSteps.concat(teardownSteps)` plus the warnings. -/
def orderMerge (ord : List String) (newSteps oldSteps : List Step) :
    List Step × List String :=
  let r := orderWalk (findStep oldSteps) (findStep newSteps) ord
  (r.1 ++ r.2.1, r.2.2)

/-- The body of the wrap-mode loop of `merge` (`src/lib/helper.js` lines
297-320) for one parent step: emit the child's `pre<name>` step, then the
step itself (parent's if the child does not define it, the child's if it is
not teardown-named, nothing for a child-redefined teardown), then the
child's `post<name>` step. -/
def wrapStep (oldF : String → Option Step) (st : Step) : List Step :=
  let pre := match oldF ("pre" ++ st.name) with
    | some s => [s]
    | none => []
  let mid := match oldF st.name with
    | none => [st]
    | some s => if isTeardown st.name then [] else [s]
  let post := match oldF ("post" ++ st.name) with
    | some s => [s]
    | none => []
  pre ++ mid ++ post

/-- The wrap-mode walk over all parent steps. -/
def wrapWalk (oldF : String → Option Step) : List Step → List Step
  | [] => []
  | st :: rest => wrapStep oldF st ++ wrapWalk oldF rest

/-- The teardown keys collected from the child's steps during the reduce
(`src/lib/helper.js` lines 285-295), appended at the end with the
last-wins lookup values (lines 322-325). -/
def wrapTeardowns (oldSteps : List Step) : List Step :=
  ((oldSteps.map Step.name).filter (fun n => isTeardown n)).filterMap (findStep oldSteps)

/-- `merge`'s wrap mode (`src/lib/helper.js` lines 277-328). -/
def wrapMerge (newSteps oldSteps : List Step) : List Step :=
  wrapWalk (findStep oldSteps) newSteps ++ wrapTeardowns oldSteps

/-- The field merges of `merge` (`src/lib/helper.js` lines 200-240): child
(`oldJob`) wins on `annotations`/`environment`/`settings` keys and on
`image`; `requires`/`blockedBy`/`freezeWindows` are replaced wholesale when
the child sets them; `cache` is the child's when explicitly set; `secrets`
and `sourcePaths` are deduplicated unions, parent first. -/
def mergeFields (newJob oldJob : JobConfig) : JobConfig :=
  { newJob with
    annotations := objAssign newJob.annotations oldJob.annotations
    environment := objAssign newJob.environment oldJob.environment
    settings := objAssign newJob.settings oldJob.settings
    image := if jsTruthy oldJob.image then oldJob.image else newJob.image
    requires := match oldJob.requires with
      | some r => some r
      | none => newJob.requires
    blockedBy := match oldJob.blockedBy with
      | some r => some r
      | none => newJob.blockedBy
    freezeWindows := match oldJob.freezeWindows with
      | some r => some r
      | none => newJob.freezeWindows
    cache := match oldJob.cache with
      | some b => some b
      | none => newJob.cache
    secrets := jsSet (newJob.secrets ++ oldJob.secrets)
    sourcePaths := some (.list (jsSet (normSP newJob.sourcePaths ++ normSP oldJob.sourcePaths))) }

/-- `merge(newJob, oldJob, fromTemplate)` from `src/lib/helper.js` (lines
197-331): the field merges, then the step merge in order mode when the child
declares `order`, else in wrap mode when the child has steps.  The child's
absent `steps` field is modelled as `[]` (wrap mode over an empty child step
list leaves the parent's steps unchanged, as the skipped branch does).
Returns the merged job and the warnings. -/
def merge (newJob oldJob : JobConfig) (fromTemplate : Bool) : JobConfig × List String :=
  let base := mergeFields newJob oldJob
  if fromTemplate then
    match oldJob.order with
    | some ord =>
      let r := orderMerge ord newJob.steps oldJob.steps
      ({ base with steps := r.1 }, r.2)
    | none =>
      if oldJob.steps.isEmpty then (base, [])
      else ({ base with steps := wrapMerge newJob.steps oldJob.steps }, [])
  else (base, [])

/-- A resolved template document as returned by the template store.  The
`namespace` field of the source is called `nspace` here (`namespace` is a
Lean keyword); `none` models an undefined namespace. -/
structure Template where
  name : String
  nspace : Option String := none
  version : String
  id : Nat := 0
  config : JobConfig
  images : Option (List (String × String)) := none
deriving Repr, DecidableEq

/-- JS string interpolation of an optional reference. -/
def templateRefString : Option String → String
  | some s => s
  | none => "undefined"

/-- The canonical full template name (`src/lib/helper.js` lines 357-362):
`namespace/name`, with the namespace omitted when it is falsy or the
`default` namespace. -/
def fullTemplateName (t : Template) : String :=
  match t.nspace with
  | some ns => if ns ≠ "" ∧ ns ≠ "default" then ns ++ "/" ++ t.name else t.name
  | none => t.name

/-- The four identity entries injected into the parent's environment
(`src/lib/helper.js` lines 364-370). -/
def injectedPairs (t : Template) : List (String × String) :=
  [("SD_TEMPLATE_FULLNAME", fullTemplateName t),
   ("SD_TEMPLATE_NAME", t.name),
   ("SD_TEMPLATE_NAMESPACE", (t.nspace).getD ""),
   ("SD_TEMPLATE_VERSION", t.version)]

/-- `Hoek.merge(environment, {SD_TEMPLATE_...})`: the injected pairs are
assigned over the parent's own environment. -/
def injectEnv (t : Template) (env : List (String × String)) : List (String × String) :=
  objAssign env (injectedPairs t)

/-- The successful branch of `mergeTemplateIntoJob` (`src/lib/helper.js`
lines 352-382): inject the template identity into the parent environment,
merge the child into the parent with `fromTemplate = true`, drop the
`template` self-reference, record `templateId`, and return the flattened
config, the parent images and the warnings. -/
def mergeTemplateIntoJobOk (tpl : Template) (oldJob : JobConfig) :
    JobConfig × Option (List (String × String)) × List String :=
  let newJob := { tpl.config with environment := injectEnv tpl tpl.config.environment }
  let r := merge newJob oldJob true
  ({ r.1 with template := none, templateId := some tpl.id }, tpl.images, r.2)

/-- `mergeTemplateIntoJob` (`src/lib/helper.js` lines 342-384): the store's
resolution of `oldJob.template` is passed in as an `Option Template`; an
unresolved reference throws `Template <ref> does not exist`. -/
def mergeTemplateIntoJob (resolved : Option Template) (oldJob : JobConfig) :
    Except String (JobConfig × Option (List (String × String)) × List String) :=
  match resolved with
  | none => .error ("Template " ++ templateRefString oldJob.template ++ " does not exist")
  | some tpl => .ok (mergeTemplateIntoJobOk tpl oldJob)

/-- A validated template document (the object `flattenTemplate` receives). -/
structure TemplateObj where
  name : String := ""
  nspace : Option String := none
  version : Option String := none
  description : String := ""
  maintainer : String := ""
  config : JobConfig
  images : Option (List (String × String)) := none
deriving Repr, DecidableEq

/-- The warning for `order` used without `template` (`src/index.js` line 47). -/
def orderWarning : String :=
  "\"order\" in template config cannot be used without \"template\""

/-- `flattenTemplate(templateObj, templateFactory)` from `src/index.js`
(lines 40-79).  `store = none` models an absent template factory;
`store = some r` models a supplied factory whose `getTemplate` resolves to
`r`.  When a non-empty `order` is declared without `template`, the `order`
field is deleted and a warning recorded; when a truthy `template` reference
and a factory are present the parent is merged in, the images maps are
combined and a matching image alias is substituted. -/
def flattenTemplate (templateObj : TemplateObj) (store : Option (Option Template)) :
    Except String (TemplateObj × List String) :=
  let strip := !((templateObj.config.order).getD []).isEmpty
                 && (templateObj.config.template).isNone
  let tObj := if strip
    then { templateObj with config := { templateObj.config with order := none } }
    else templateObj
  let warn1 : List String := if strip then [orderWarning] else []
  match store with
  | some resolved =>
    if jsTruthy tObj.config.template then
      match mergeTemplateIntoJob resolved tObj.config with
      | .error e => .error e
      | .ok (childJobConfig, parentTemplateImages, warnings) =>
        let images := match parentTemplateImages with
          | some pimgs => some (match tObj.images with
            | some timgs => objAssign pimgs timgs
            | none => pimgs)
          | none => tObj.images
        let image := match images, childJobConfig.image with
          | some imgs, some im =>
            (match getKey imgs im with
             | some v => some v
             | none => some im)
          | _, im => im
        .ok ({ tObj with config := { childJobConfig with image := image }, images := images },
             warn1 ++ warnings)
    else .ok (tObj, warn1)
  | none => .ok (tObj, warn1)

/-! ## Locked-step composition, modelled from the spec

The test suite (`src/test/index.test.js`) exercises locked steps and the
`parameters` merge, but the `merge` implementation in the source snapshot
predates both features.  The definitions below are modelled from the spec
(§4.3 steps 4-5, §7) and from the exact messages asserted by the tests. -/

/-- Modelled from the spec: the `parameters` merge is missing from the
`merge` code in the snapshot (§4.3 step 4: "`parameters`: key-wise union,
child's value wins on duplicate key name"), modelled as a JS object assign
of the child's map over the parent's. -/
def mergeParameters (parent child : List (String × String)) : List (String × String) :=
  objAssign parent child

/-- The names of the parent's locked steps (spec §4.3 step 5: "record which
parent step names are locked"). -/
def lockedNames (parentSteps : List Step) : List String :=
  (parentSteps.filter (fun s => s.locked)).map Step.name

/-- The conflict warning for a child's attempt to override a locked step
(spec §4.3 step 5). -/
def lockWarning (ref n : String) : String :=
  "cannot override locked step `" ++ n ++ "`; using step definition from template `"
    ++ ref ++ "`"

/-- The fatal error when `order` omits locked parent steps, in the format
asserted by the tests (`src/test/index.test.js` line 292). -/
def lockedStepsError (ref : String) (missing : List String) : String :=
  "Order must contain template " ++ ref ++ " locked steps: "
    ++ String.intercalate ", " missing

/-- Modelled from the spec (§4.3 step 5, order mode): walk the `order`
names; a locked parent name always takes the parent's definition (warning if
the child also defines it), otherwise the child's definition is preferred,
then the parent's, else a skip warning; teardown names are collected
separately. -/
def orderWalkL (ref : String) (locked : List String) (oldF newF : String → Option Step) :
    List String → List Step × List Step × List String
  | [] => ([], [], [])
  | n :: rest =>
    let r := orderWalkL ref locked oldF newF rest
    match (if n ∈ locked then none else oldF n) with
    | some s =>
      if isTeardown n then (r.1, s :: r.2.1, r.2.2) else (s :: r.1, r.2.1, r.2.2)
    | none =>
      match newF n with
      | some s =>
        let w : List String := if n ∈ locked ∧ (oldF n).isSome then [lockWarning ref n] else []
        if isTeardown n then (r.1, s :: r.2.1, w ++ r.2.2)
        else (s :: r.1, r.2.1, w ++ r.2.2)
      | none => (r.1, r.2.1, skipWarning n :: r.2.2)

/-- Modelled from the spec (§4.3, order mode with locked steps): verify
every locked parent name appears in the child's `order` (else the fatal
`CompositionError`), then walk the `order` list and append the teardown
steps after all other resolved steps. -/
def orderMergeLocked (ref : String) (ord : List String) (newSteps oldSteps : List Step) :
    Except String (List Step × List String) :=
  let locked := lockedNames newSteps
  let missing := locked.filter (fun n => !(ord.contains n))
  if missing.isEmpty then
    let r := orderWalkL ref locked (findStep oldSteps) (findStep newSteps) ord
    .ok (r.1 ++ r.2.1, r.2.2)
  else
    .error (lockedStepsError ref missing)

/-- Modelled from the spec (§4.3 step 5, wrap mode) for one parent step:
the child's `pre<name>` hook, then the step itself — the parent's
definition when the step is locked (warning if the child also defines it)
or when the child does not define it, the child's definition when it is not
teardown-named — then the child's `post<name>` hook. -/
def wrapStepL (ref : String) (oldF : String → Option Step) (st : Step) :
    List Step × List String :=
  let pre := match oldF ("pre" ++ st.name) with
    | some s => [s]
    | none => []
  let post := match oldF ("post" ++ st.name) with
    | some s => [s]
    | none => []
  let mid : List Step × List String :=
    if st.locked then
      ([st], if (oldF st.name).isSome then [lockWarning ref st.name] else [])
    else
      match oldF st.name with
      | none => ([st], [])
      | some s => (if isTeardown st.name then [] else [s], [])
  (pre ++ mid.1 ++ post, mid.2)

/-- Modelled from the spec: the wrap-mode walk over the parent's steps. -/
def wrapWalkL (ref : String) (oldF : String → Option Step) :
    List Step → List Step × List String
  | [] => ([], [])
  | st :: rest =>
    let h := wrapStepL ref oldF st
    let r := wrapWalkL ref oldF rest
    (h.1 ++ r.1, h.2 ++ r.2)

/-- Modelled from the spec (§4.3 step 5, wrap mode): after the walk, every
teardown-named step the child itself defined is appended in the child's
original list order with the child's definitions. -/
def wrapMergeLocked (ref : String) (newSteps oldSteps : List Step) :
    List Step × List String :=
  let r := wrapWalkL ref (findStep oldSteps) newSteps
  (r.1 ++ oldSteps.filter (fun s => isTeardown s.name), r.2)

/-- Modelled from the spec: `merge` as the composition engine with locked
steps (§4.3 steps 4-5) — the field merges of the snapshot's `merge` plus
the `parameters` merge, then order mode (which may fail on missing locked
steps) or wrap mode.  The parent reference used in messages is the child's
`template` field. -/
def mergeL (newJob oldJob : JobConfig) (fromTemplate : Bool) :
    Except String (JobConfig × List String) :=
  let ref := templateRefString oldJob.template
  let base := { mergeFields newJob oldJob with
    parameters := mergeParameters newJob.parameters oldJob.parameters }
  if fromTemplate then
    match oldJob.order with
    | some ord =>
      match orderMergeLocked ref ord newJob.steps oldJob.steps with
      | .error e => .error e
      | .ok r => .ok ({ base with steps := r.1 }, r.2)
    | none =>
      if oldJob.steps.isEmpty then .ok (base, [])
      else
        let r := wrapMergeLocked ref newJob.steps oldJob.steps
        .ok ({ base with steps := r.1 }, r.2)
  else .ok (base, [])

/-- Modelled from the spec: `mergeTemplateIntoJob` over the locked-step
merge (§4.3 steps 2-3 and 6). -/
def mergeTemplateIntoJobL (resolved : Option Template) (oldJob : JobConfig) :
    Except String (JobConfig × Option (List (String × String)) × List String) :=
  match resolved with
  | none => .error ("Template " ++ templateRefString oldJob.template ++ " does not exist")
  | some tpl =>
    let newJob := { tpl.config with environment := injectEnv tpl tpl.config.environment }
    match mergeL newJob oldJob true with
    | .error e => .error e
    | .ok r => .ok ({ r.1 with template := none, templateId := some tpl.id }, tpl.images, r.2)

/-- The teardown-placement invariant on a steps list: once a
teardown-named step occurs, every later step is teardown-named. -/
def teardownsLast (l : List Step) : Bool :=
  (l.dropWhile (fun s => !(isTeardown s.name))).all (fun s => isTeardown s.name)

/-- The step a name in `order` resolves to, over abstract lookups: the
child's (`oldF`) definition when present, else the parent's (`newF`). -/
def pickF (oldF newF : String → Option Step) (n : String) : Option Step :=
  match oldF n with
  | some s => some s
  | none => newF n

/-- The step a name in `order` resolves to: the child's definition when the
child defines the name, else the parent's. -/
def pickStep (oldSteps newSteps : List Step) (n : String) : Option Step :=
  pickF (findStep oldSteps) (findStep newSteps) n

/-- The step a name in `order` resolves to under locked-step rules: a locked
parent name always resolves to the parent's definition. -/
def pickL (locked : List String) (oldF newF : String → Option Step) (n : String) : Option Step :=
  if n ∈ locked then newF n else pickF oldF newF n

/-- The warning a name in `order` produces under locked-step rules: a skip
warning when the name resolves to nothing, a conflict warning when the child
attempts to define a locked parent name. -/
def orderWarnL (ref : String) (locked : List String) (oldF newF : String → Option Step)
    (n : String) : Option String :=
  if (pickL locked oldF newF n).isNone then some (skipWarning n)
  else if n ∈ locked ∧ (oldF n).isSome then some (lockWarning ref n)
  else none

/-- The merged steps of a merge result (`[]` when composition failed). -/
def mergedStepsOf (r : Except String (JobConfig × List String)) : List Step :=
  match r with
  | .ok p => p.1.steps
  | .error _ => []

/-- The warnings of a merge result (`[]` when composition failed). -/
def warningsOf (r : Except String (JobConfig × List String)) : List String :=
  match r with
  | .ok p => p.2
  | .error _ => []

/-- Whether a merge result is a success (no `CompositionError` thrown). -/
def mergeOk (r : Except String (JobConfig × List String)) : Bool :=
  match r with
  | .ok _ => true
  | .error _ => false

/-- Example parent job with one locked step, used to exercise the
locked-step theorems on concrete data. -/
def exParentJob : JobConfig :=
  { steps := [⟨"build", "pb", true⟩] }

/-- Example child job attempting to override the locked step. -/
def exChildJob : JobConfig :=
  { template := some "t@1", steps := [⟨"build", "cb", false⟩] }

/-- Example resolved parent template with a locked `security` step, matching
the fixture of the `order`-misses-locked-steps test. -/
def exLockedTpl : Template :=
  { name := "parent", nspace := some "template_namespace", version := "1", id := 7,
    config := { steps := [⟨"test", "run", false⟩, ⟨"security", "scan", true⟩] } }

/-- Example child whose `order` omits the locked `security` step. -/
def exOrderChild : JobConfig :=
  { order := some ["test"], template := some "template_namespace/parent@1" }

/-! ## Association-list lemmas -/

theorem getKey_setKey (m : List (String × String)) (k v k' : String) :
    getKey (setKey m k v) k' = if k = k' then some v else getKey m k' := by
  induction m with
  | nil =>
    simp only [setKey, getKey]
  | cons p rest ih =>
    by_cases hp : p.1 = k
    · simp only [setKey, if_pos hp, getKey]
      split_ifs with h1 h2
      · rfl
      · exact absurd (hp.symm.trans h2) h1
      · rfl
    · simp only [setKey, if_neg hp, getKey, ih]
      split_ifs with h1 h2
      · exact absurd (h1.trans h2.symm) hp
      · rfl
      · rfl
      · rfl

theorem foldl_lastKey (s : List (String × String)) (k : String) (a : Option String) :
    s.foldl (fun acc p => if p.1 = k then some p.2 else acc) a
      = match getLastKey s k with
        | some v => some v
        | none => a := by
  induction s generalizing a with
  | nil => simp [getLastKey]
  | cons p s ih =>
    simp only [getLastKey, List.foldl_cons]
    rw [ih, ih]
    rcases hG : getLastKey s k with _ | v
    · by_cases hp : p.1 = k <;> simp [hp]
    · simp

theorem getLastKey_cons (p : String × String) (s : List (String × String)) (k : String) :
    getLastKey (p :: s) k
      = match getLastKey s k with
        | some v => some v
        | none => if p.1 = k then some p.2 else none := by
  simp only [getLastKey, List.foldl_cons]
  exact foldl_lastKey s k _

theorem getKey_objAssign (s t : List (String × String)) (k : String) :
    getKey (objAssign t s) k
      = match getLastKey s k with
        | some v => some v
        | none => getKey t k := by
  induction s generalizing t with
  | nil => simp [objAssign, getLastKey]
  | cons p s ih =>
    simp only [objAssign, List.foldl_cons] at ih ⊢
    rw [ih, getLastKey_cons]
    rcases hG : getLastKey s k with _ | v
    · simp only [getKey_setKey]
      by_cases hp : p.1 = k <;> simp [hp]
    · simp

theorem getKey_eq_none_of_not_mem (m : List (String × String)) (k : String)
    (h : k ∉ m.map Prod.fst) : getKey m k = none := by
  induction m with
  | nil => rfl
  | cons p rest ih =>
    simp only [List.map_cons, List.mem_cons, not_or] at h
    have hp : ¬p.1 = k := fun hh => h.1 hh.symm
    simp only [getKey, if_neg hp]
    exact ih h.2

theorem getLastKey_eq_getKey (m : List (String × String)) (k : String)
    (h : (m.map Prod.fst).Nodup) : getLastKey m k = getKey m k := by
  induction m with
  | nil => rfl
  | cons p rest ih =>
    simp only [List.map_cons, List.nodup_cons] at h
    rw [getLastKey_cons, ih h.2]
    simp only [getKey]
    by_cases hp : p.1 = k
    · subst hp
      rw [getKey_eq_none_of_not_mem rest p.1 h.1]
    · rcases hg : getKey rest k with _ | v <;> simp [hp, hg]

/-! ## JS-set lemmas -/

theorem mem_foldl_jsAdd (l acc : List String) (x : String) :
    x ∈ l.foldl jsAdd acc ↔ x ∈ acc ∨ x ∈ l := by
  induction l generalizing acc with
  | nil => simp
  | cons y l ih =>
    simp only [List.foldl_cons, ih, List.mem_cons]
    by_cases hy : y ∈ acc
    · simp only [jsAdd, if_pos hy]
      constructor
      · rintro (h | h)
        · exact Or.inl h
        · exact Or.inr (Or.inr h)
      · rintro (h | h | h)
        · exact Or.inl h
        · exact Or.inl (h ▸ hy)
        · exact Or.inr h
    · simp only [jsAdd, if_neg hy, List.mem_append, List.mem_singleton]
      tauto

theorem nodup_foldl_jsAdd (l : List String) (acc : List String) (h : acc.Nodup) :
    (l.foldl jsAdd acc).Nodup := by
  induction l generalizing acc with
  | nil => exact h
  | cons y l ih =>
    simp only [List.foldl_cons]
    apply ih
    by_cases hy : y ∈ acc
    · simpa [jsAdd, hy] using h
    · simp [jsAdd, hy, List.nodup_append, h]

theorem foldl_jsAdd_decomp (l acc : List String) :
    ∃ t, l.foldl jsAdd acc = acc ++ t ∧ ∀ x ∈ t, x ∈ l := by
  induction l generalizing acc with
  | nil => exact ⟨[], by simp, by simp⟩
  | cons y l ih =>
    by_cases hy : y ∈ acc
    · obtain ⟨t, ht, hmem⟩ := ih acc
      refine ⟨t, ?_, fun x hx => List.mem_cons_of_mem _ (hmem x hx)⟩
      simpa [jsAdd, hy] using ht
    · obtain ⟨t, ht, hmem⟩ := ih (acc ++ [y])
      refine ⟨y :: t, ?_, ?_⟩
      · simp only [List.foldl_cons, jsAdd, if_neg hy] at ht ⊢
        rw [ht, List.append_assoc]
        rfl
      · rintro x (_ | hx)
        · exact List.mem_cons_self _ _
        · exact List.mem_cons_of_mem _ (hmem x (by assumption))

theorem jsSet_append (a b : List String) :
    jsSet (a ++ b) = b.foldl jsAdd (jsSet a) := by
  simp [jsSet, List.foldl_append]

theorem mem_jsSet (l : List String) (x : String) : x ∈ jsSet l ↔ x ∈ l := by
  simp [jsSet, mem_foldl_jsAdd]

theorem nodup_jsSet (l : List String) : (jsSet l).Nodup :=
  nodup_foldl_jsAdd l [] List.nodup_nil

/-! ## Step-lookup lemmas -/

theorem find?_step_name {l : List Step} {n : String} {s : Step}
    (h : l.find? (fun x => x.name == n) = some s) : s.name = n := by
  have := List.find?_some h
  simpa using this

theorem findStep_name {l : List Step} {n : String} {s : Step}
    (h : findStep l n = some s) : s.name = n :=
  find?_step_name h

theorem find?_unique (l : List Step) (n : String) (s : Step)
    (hall : ∀ x ∈ l, x.name = n → x = s) (hex : ∃ x ∈ l, x.name = n) :
    l.find? (fun x => x.name == n) = some s := by
  induction l with
  | nil =>
    rcases hex with ⟨x, hx, _⟩
    cases hx
  | cons y l ih =>
    by_cases hy : y.name = n
    · have hys : y = s := hall y (List.mem_cons_self _ _) hy
      rw [List.find?_cons_of_pos _ (by simp [hy]), hys]
    · rw [List.find?_cons_of_neg _ (by simp [hy])]
      refine ih (fun x hx hxn => hall x (List.mem_cons_of_mem _ hx) hxn) ?_
      rcases hex with ⟨x, hx, hxn⟩
      rcases List.mem_cons.mp hx with rfl | hx'
      · exact absurd hxn hy
      · exact ⟨x, hx', hxn⟩

theorem name_inj {l : List Step} (hnd : (l.map Step.name).Nodup) :
    ∀ x ∈ l, ∀ y ∈ l, x.name = y.name → x = y := by
  intro x hx y hy hxy
  exact List.inj_on_of_nodup_map hnd hx hy hxy

theorem findStep_of_nodup (l : List Step) (s : Step)
    (hnd : (l.map Step.name).Nodup) (hs : s ∈ l) :
    findStep l s.name = some s := by
  unfold findStep
  apply find?_unique
  · intro x hx hxn
    exact name_inj hnd x (List.mem_reverse.mp hx) s hs hxn
  · exact ⟨s, List.mem_reverse.mpr hs, rfl⟩

theorem find?_append_of_some {p : Step → Bool} {a : List Step} (b : List Step) {s : Step}
    (h : a.find? p = some s) : (a ++ b).find? p = some s := by
  induction a with
  | nil => cases h
  | cons y a ih =>
    cases hy : p y with
    | false =>
      rw [List.find?_cons_of_neg _ (by simp [hy])] at h
      rw [List.cons_append, List.find?_cons_of_neg _ (by simp [hy])]
      exact ih h
    | true =>
      rw [List.find?_cons_of_pos _ hy] at h
      rw [List.cons_append, List.find?_cons_of_pos _ hy]
      exact h

theorem find?_append_of_none {p : Step → Bool} {a : List Step} (b : List Step)
    (h : ∀ x ∈ a, p x = false) : (a ++ b).find? p = b.find? p := by
  induction a with
  | nil => rfl
  | cons y a ih =>
    rw [List.cons_append, List.find?_cons_of_neg _ (by simp [h y (List.mem_cons_self _ _)])]
    exact ih (fun x hx => h x (List.mem_cons_of_mem _ hx))

/-! ## Teardown-placement lemmas -/

theorem teardownsLast_append (a b : List Step)
    (ha : ∀ x ∈ a, isTeardown x.name = false) (hb : ∀ x ∈ b, isTeardown x.name = true) :
    teardownsLast (a ++ b) = true := by
  induction a with
  | nil =>
    unfold teardownsLast
    cases b with
    | nil => simp
    | cons y ys =>
      rw [List.nil_append, List.dropWhile_cons]
      rw [hb y (List.mem_cons_self _ _)]
      simp only [Bool.not_true, Bool.false_eq_true, if_false, List.all_eq_true]
      intro s hs
      exact hb s hs
  | cons x a ih =>
    unfold teardownsLast at ih ⊢
    rw [List.cons_append, List.dropWhile_cons, ha x (List.mem_cons_self _ _)]
    simp only [Bool.not_false, if_true]
    exact ih (fun y hy => ha y (List.mem_cons_of_mem _ hy))

/-! ## Characterization of the order-mode walks -/

theorem orderWalk_eq (oldF newF : String → Option Step) (ord : List String) :
    orderWalk oldF newF ord =
      ((ord.filter fun n => !isTeardown n).filterMap (pickF oldF newF),
       (ord.filter fun n => isTeardown n).filterMap (pickF oldF newF),
       (ord.filter fun n => (pickF oldF newF n).isNone).map skipWarning) := by
  induction ord with
  | nil => rfl
  | cons n rest ih =>
    simp only [orderWalk, ih]
    rcases ho : oldF n with _ | s
    · rcases hn : newF n with _ | s
      · cases ht : isTeardown n <;>
          simp [pickF, ho, hn, ht, List.filter_cons, List.filterMap_cons]
      · cases ht : isTeardown n <;>
          simp [pickF, ho, hn, ht, List.filter_cons, List.filterMap_cons]
    · cases ht : isTeardown n <;>
        simp [pickF, ho, ht, List.filter_cons, List.filterMap_cons]

theorem orderWalkL_eq (ref : String) (locked : List String)
    (oldF newF : String → Option Step) (ord : List String) :
    orderWalkL ref locked oldF newF ord =
      ((ord.filter fun n => !isTeardown n).filterMap (pickL locked oldF newF),
       (ord.filter fun n => isTeardown n).filterMap (pickL locked oldF newF),
       ord.filterMap (orderWarnL ref locked oldF newF)) := by
  induction ord with
  | nil => rfl
  | cons n rest ih =>
    simp only [orderWalkL, ih]
    by_cases hl : n ∈ locked
    · simp only [if_pos hl]
      rcases hn : newF n with _ | s
      · cases ht : isTeardown n <;>
          simp [pickL, orderWarnL, hl, hn, ht, List.filter_cons, List.filterMap_cons]
      · rcases ho : oldF n with _ | t <;> cases ht : isTeardown n <;>
          simp [pickL, orderWarnL, hl, hn, ho, ht, List.filter_cons, List.filterMap_cons]
    · simp only [if_neg hl]
      rcases ho : oldF n with _ | s
      · rcases hn : newF n with _ | s <;> cases ht : isTeardown n <;>
          simp [pickL, pickF, orderWarnL, hl, ho, hn, ht, List.filter_cons, List.filterMap_cons]
      · cases ht : isTeardown n <;>
          simp [pickL, pickF, orderWarnL, hl, ho, ht, List.filter_cons, List.filterMap_cons]

/-! ## Name lemmas for resolved steps -/

theorem isTeardown_pre (x : String) : isTeardown ("pre" ++ x) = false := rfl

theorem isTeardown_post (x : String) : isTeardown ("post" ++ x) = false := rfl

theorem pickF_name {oldF newF : String → Option Step}
    (hFo : ∀ n x, oldF n = some x → x.name = n)
    (hFn : ∀ n x, newF n = some x → x.name = n)
    {n : String} {x : Step} (h : pickF oldF newF n = some x) : x.name = n := by
  unfold pickF at h
  rcases ho : oldF n with _ | s
  · rw [ho] at h
    exact hFn n x h
  · rw [ho] at h
    exact hFo n x (ho.trans h)

theorem pickL_name {locked : List String} {oldF newF : String → Option Step}
    (hFo : ∀ n x, oldF n = some x → x.name = n)
    (hFn : ∀ n x, newF n = some x → x.name = n)
    {n : String} {x : Step} (h : pickL locked oldF newF n = some x) : x.name = n := by
  unfold pickL at h
  by_cases hl : n ∈ locked
  · rw [if_pos hl] at h
    exact hFn n x h
  · rw [if_neg hl] at h
    exact pickF_name hFo hFn h

theorem mem_lockedNames {l : List Step} {s : Step} (hs : s ∈ l) (hl : s.locked = true) :
    s.name ∈ lockedNames l := by
  unfold lockedNames
  exact List.mem_map_of_mem _ (List.mem_filter.mpr ⟨hs, by simp [hl]⟩)

theorem filterMap_pick_no_teardown {f : String → Option Step}
    (hf : ∀ n x, f n = some x → x.name = n) (ord : List String) :
    ∀ x ∈ (ord.filter fun n => !isTeardown n).filterMap f, isTeardown x.name = false := by
  intro x hx
  obtain ⟨n, hn, hfx⟩ := List.mem_filterMap.mp hx
  have h1 := (List.mem_filter.mp hn).2
  rw [hf n x hfx]
  simpa using h1

theorem filterMap_pick_teardown {f : String → Option Step}
    (hf : ∀ n x, f n = some x → x.name = n) (ord : List String) :
    ∀ x ∈ (ord.filter fun n => isTeardown n).filterMap f, isTeardown x.name = true := by
  intro x hx
  obtain ⟨n, hn, hfx⟩ := List.mem_filterMap.mp hx
  have h1 := (List.mem_filter.mp hn).2
  rw [hf n x hfx]
  exact h1

theorem wrapTeardowns_teardown (oldSteps : List Step) :
    ∀ x ∈ wrapTeardowns oldSteps, isTeardown x.name = true := by
  intro x hx
  obtain ⟨n, hn, hfs⟩ := List.mem_filterMap.mp hx
  rw [findStep_name hfs]
  exact (List.mem_filter.mp hn).2

/-! ## Wrap-mode lemmas -/

theorem wrapStep_no_teardown {oldF : String → Option Step}
    (hF : ∀ n x, oldF n = some x → x.name = n) (st : Step)
    (hmid : isTeardown st.name = true → (oldF st.name).isSome = true) :
    ∀ x ∈ wrapStep oldF st, isTeardown x.name = false := by
  intro x hx
  unfold wrapStep at hx
  simp only [List.mem_append] at hx
  rcases hx with (hx | hx) | hx
  · rcases hp : oldF ("pre" ++ st.name) with _ | y
    · rw [hp] at hx
      cases hx
    · rw [hp] at hx
      rcases List.mem_singleton.mp hx with rfl
      rw [hF _ x hp]
      exact isTeardown_pre st.name
  · rcases hm : oldF st.name with _ | y
    · rw [hm] at hx
      rcases List.mem_singleton.mp hx with rfl
      cases ht : isTeardown x.name
      · rfl
      · have := hmid ht
        rw [hm] at this
        cases this
    · rw [hm] at hx
      cases ht : isTeardown st.name
      · rw [ht] at hx
        simp only [Bool.false_eq_true, if_false] at hx
        rcases List.mem_singleton.mp hx with rfl
        rw [hF _ x hm]
        exact ht
      · rw [ht] at hx
        simp at hx
  · rcases hp : oldF ("post" ++ st.name) with _ | y
    · rw [hp] at hx
      cases hx
    · rw [hp] at hx
      rcases List.mem_singleton.mp hx with rfl
      rw [hF _ x hp]
      exact isTeardown_post st.name

theorem wrapWalk_no_teardown {oldF : String → Option Step}
    (hF : ∀ n x, oldF n = some x → x.name = n) (steps : List Step)
    (h : ∀ st ∈ steps, isTeardown st.name = true → (oldF st.name).isSome = true) :
    ∀ x ∈ wrapWalk oldF steps, isTeardown x.name = false := by
  induction steps with
  | nil => intro x hx; cases hx
  | cons st rest ih =>
    intro x hx
    rcases List.mem_append.mp hx with hx | hx
    · exact wrapStep_no_teardown hF st (h st (List.mem_cons_self _ _)) x hx
    · exact ih (fun y hy => h y (List.mem_cons_of_mem _ hy)) x hx

theorem wrapStepL_names {ref : String} {oldF : String → Option Step}
    (hF : ∀ n x, oldF n = some x → x.name = n) (st : Step) :
    ∀ x ∈ (wrapStepL ref oldF st).1,
      x.name = st.name ∨ x.name = "pre" ++ st.name ∨ x.name = "post" ++ st.name := by
  intro x hx
  unfold wrapStepL at hx
  simp only [List.mem_append] at hx
  rcases hx with (hx | hx) | hx
  · rcases hp : oldF ("pre" ++ st.name) with _ | y
    · rw [hp] at hx
      cases hx
    · rw [hp] at hx
      rcases List.mem_singleton.mp hx with rfl
      exact Or.inr (Or.inl (hF _ x hp))
  · by_cases hlk : st.locked
    · rw [if_pos hlk] at hx
      rcases List.mem_singleton.mp hx with rfl
      exact Or.inl rfl
    · rw [if_neg hlk] at hx
      rcases hm : oldF st.name with _ | y
      · rw [hm] at hx
        rcases List.mem_singleton.mp hx with rfl
        exact Or.inl rfl
      · rw [hm] at hx
        cases ht : isTeardown st.name
        · rw [ht] at hx
          simp only [Bool.false_eq_true, if_false] at hx
          rcases List.mem_singleton.mp hx with rfl
          exact Or.inl (hF _ x hm)
        · rw [ht] at hx
          simp at hx
  · rcases hp : oldF ("post" ++ st.name) with _ | y
    · rw [hp] at hx
      cases hx
    · rw [hp] at hx
      rcases List.mem_singleton.mp hx with rfl
      exact Or.inr (Or.inr (hF _ x hp))

theorem wrapWalkL_cons (ref : String) (oldF : String → Option Step) (st : Step)
    (rest : List Step) :
    wrapWalkL ref oldF (st :: rest)
      = ((wrapStepL ref oldF st).1 ++ (wrapWalkL ref oldF rest).1,
         (wrapStepL ref oldF st).2 ++ (wrapWalkL ref oldF rest).2) := rfl

theorem wrapWalkL_locked_decomp (ref : String) {oldF : String → Option Step}
    (hF : ∀ n x, oldF n = some x → x.name = n) (steps : List Step) (s : Step)
    (hnd : (steps.map Step.name).Nodup) (hs : s ∈ steps) (hl : s.locked = true)
    (hhook : ∀ y ∈ steps, ¬"pre" ++ y.name = s.name ∧ ¬"post" ++ y.name = s.name) :
    ∃ a b, (wrapWalkL ref oldF steps).1 = a ++ s :: b ∧ ∀ x ∈ a, x.name ≠ s.name := by
  induction steps with
  | nil => cases hs
  | cons st rest ih =>
    rw [wrapWalkL_cons]
    rcases List.mem_cons.mp hs with rfl | hsrest
    · have hmid : (wrapStepL ref oldF s).1
          = (match oldF ("pre" ++ s.name) with | some x => [x] | none => [])
            ++ s :: (match oldF ("post" ++ s.name) with | some x => [x] | none => []) := by
        simp [wrapStepL, hl]
      refine ⟨(match oldF ("pre" ++ s.name) with | some x => [x] | none => []),
        (match oldF ("post" ++ s.name) with | some x => [x] | none => [])
          ++ (wrapWalkL ref oldF rest).1, ?_, ?_⟩
      · rw [hmid]
        simp [List.append_assoc]
      · intro x hx
        rcases hp : oldF ("pre" ++ s.name) with _ | y
        · rw [hp] at hx
          cases hx
        · rw [hp] at hx
          rcases List.mem_singleton.mp hx with rfl
          rw [hF _ x hp]
          exact (hhook s hs).1
    · rw [List.map_cons, List.nodup_cons] at hnd
      have hstname : st.name ≠ s.name := fun heq =>
        hnd.1 (heq ▸ List.mem_map_of_mem Step.name hsrest)
      obtain ⟨a2, b2, heq, hnames⟩ :=
        ih hnd.2 hsrest (fun y hy => hhook y (List.mem_cons_of_mem _ hy))
      refine ⟨(wrapStepL ref oldF st).1 ++ a2, b2, ?_, ?_⟩
      · rw [heq, List.append_assoc]
      · intro x hx
        rcases List.mem_append.mp hx with hx | hx
        · rcases wrapStepL_names hF st x hx with h1 | h1 | h1
          · rw [h1]
            exact hstname
          · rw [h1]
            exact (hhook st (List.mem_cons_self _ _)).1
          · rw [h1]
            exact (hhook st (List.mem_cons_self _ _)).2
        · exact hnames x hx

theorem wrapWalkL_locked_warning (ref : String) (oldF : String → Option Step)
    (steps : List Step) (s : Step) (hs : s ∈ steps) (hl : s.locked = true)
    (hold : (oldF s.name).isSome = true) :
    lockWarning ref s.name ∈ (wrapWalkL ref oldF steps).2 := by
  induction steps with
  | nil => cases hs
  | cons st rest ih =>
    rw [wrapWalkL_cons]
    rcases List.mem_cons.mp hs with rfl | hsrest
    · apply List.mem_append_left
      simp [wrapStepL, hl, hold]
    · exact List.mem_append_right _ (ih hsrest)

theorem find?_prefix_decomp (a b : List Step) (s : Step)
    (ha : ∀ x ∈ a, x.name ≠ s.name) :
    (a ++ s :: b).find? (fun x => x.name == s.name) = some s := by
  rw [find?_append_of_none _ (fun x hx => by simp [ha x hx])]
  rw [List.find?_cons_of_pos _ (by simp)]

/-! ## Projections of the merge result -/

theorem merge_fields_proj (newJob oldJob : JobConfig) (ft : Bool) :
    (merge newJob oldJob ft).1.secrets = jsSet (newJob.secrets ++ oldJob.secrets)
    ∧ (merge newJob oldJob ft).1.sourcePaths
        = some (.list (jsSet (normSP newJob.sourcePaths ++ normSP oldJob.sourcePaths)))
    ∧ (merge newJob oldJob ft).1.environment
        = objAssign newJob.environment oldJob.environment := by
  cases ft
  · exact ⟨rfl, rfl, rfl⟩
  · rcases ho : oldJob.order with _ | ord
    · by_cases he : oldJob.steps.isEmpty <;> simp [merge, mergeFields, ho, he]
    · simp [merge, mergeFields, ho]

theorem mergeTemplateIntoJobOk_env (tpl : Template) (oldJob : JobConfig) :
    (mergeTemplateIntoJobOk tpl oldJob).1.environment
      = objAssign (objAssign tpl.config.environment (injectedPairs tpl))
          oldJob.environment := by
  unfold mergeTemplateIntoJobOk
  have h := (merge_fields_proj
    { tpl.config with environment := injectEnv tpl tpl.config.environment } oldJob true).2.2
  simp only [injectEnv] at h
  simpa using h

theorem getKey_env_final (parentEnv childEnv : List (String × String)) (tpl : Template)
    (k v : String) (hc : (childEnv.map Prod.fst).Nodup)
    (hkv : getLastKey (injectedPairs tpl) k = some v) :
    getKey (objAssign (objAssign parentEnv (injectedPairs tpl)) childEnv) k
      = some ((getKey childEnv k).getD v) := by
  rw [getKey_objAssign, getLastKey_eq_getKey _ _ hc]
  rcases hk : getKey childEnv k with _ | w
  · simp only []
    rw [getKey_objAssign, hkv]
    rfl
  · simp

theorem jsSet_union_spec (a b : List String) :
    (∀ x, x ∈ jsSet (a ++ b) ↔ x ∈ a ∨ x ∈ b) ∧ (jsSet (a ++ b)).Nodup
    ∧ ∃ t, jsSet (a ++ b) = jsSet a ++ t ∧ ∀ x ∈ t, x ∈ b := by
  refine ⟨fun x => ?_, nodup_jsSet _, ?_⟩
  · rw [mem_jsSet]
    exact List.mem_append
  · rw [jsSet_append]
    exact foldl_jsAdd_decomp b (jsSet a)

/-! ## Dispatch lemmas for the locked-step merge -/

theorem orderMergeLocked_ok (ref : String) (ord : List String) (newSteps oldSteps : List Step)
    (h : ((lockedNames newSteps).filter (fun n => !(ord.contains n))).isEmpty = true) :
    orderMergeLocked ref ord newSteps oldSteps
      = .ok ((orderWalkL ref (lockedNames newSteps) (findStep oldSteps)
              (findStep newSteps) ord).1
            ++ (orderWalkL ref (lockedNames newSteps) (findStep oldSteps)
              (findStep newSteps) ord).2.1,
           (orderWalkL ref (lockedNames newSteps) (findStep oldSteps)
              (findStep newSteps) ord).2.2) := by
  simp only [orderMergeLocked]
  rw [h]
  rfl

theorem orderMergeLocked_error (ref : String) (ord : List String)
    (newSteps oldSteps : List Step)
    (h : ((lockedNames newSteps).filter (fun n => !(ord.contains n))).isEmpty = false) :
    orderMergeLocked ref ord newSteps oldSteps
      = .error (lockedStepsError ref
          ((lockedNames newSteps).filter (fun n => !(ord.contains n)))) := by
  simp only [orderMergeLocked]
  rw [h]
  rfl

theorem mergeL_order (newJob oldJob : JobConfig) (ord : List String)
    (ho : oldJob.order = some ord) :
    mergeL newJob oldJob true
      = match orderMergeLocked (templateRefString oldJob.template) ord
          newJob.steps oldJob.steps with
        | .error e => .error e
        | .ok r => .ok ({ mergeFields newJob oldJob with
            parameters := mergeParameters newJob.parameters oldJob.parameters,
            steps := r.1 }, r.2) := by
  unfold mergeL
  rw [ho]
  rfl

theorem mergeL_wrap (newJob oldJob : JobConfig) (ho : oldJob.order = none)
    (he : oldJob.steps.isEmpty = false) :
    mergeL newJob oldJob true
      = .ok ({ mergeFields newJob oldJob with
          parameters := mergeParameters newJob.parameters oldJob.parameters,
          steps := (wrapMergeLocked (templateRefString oldJob.template)
            newJob.steps oldJob.steps).1 },
        (wrapMergeLocked (templateRefString oldJob.template)
          newJob.steps oldJob.steps).2) := by
  unfold mergeL
  rw [ho, he]
  rfl

theorem mergeL_skip (newJob oldJob : JobConfig) (ho : oldJob.order = none)
    (he : oldJob.steps.isEmpty = true) :
    mergeL newJob oldJob true
      = .ok ({ mergeFields newJob oldJob with
          parameters := mergeParameters newJob.parameters oldJob.parameters }, []) := by
  unfold mergeL
  rw [ho, he]
  rfl

theorem wrapMergeLocked_fst (ref : String) (newSteps oldSteps : List Step) :
    (wrapMergeLocked ref newSteps oldSteps).1
      = (wrapWalkL ref (findStep oldSteps) newSteps).1
        ++ oldSteps.filter (fun x => isTeardown x.name) := rfl

theorem wrapMergeLocked_snd (ref : String) (newSteps oldSteps : List Step) :
    (wrapMergeLocked ref newSteps oldSteps).2
      = (wrapWalkL ref (findStep oldSteps) newSteps).2 := rfl

/-! ## Claim theorems -/

/-- Claim C9: in order mode, the merged steps list is exactly the child's
`order` list resolved name by name — child's definition preferred over the
parent's, unresolvable names dropped — with the teardown-prefixed names
appended last in their `order`-relative sequence, and one skip warning per
name neither side defines. -/
theorem order_mode_characterization (ord : List String) (newSteps oldSteps : List Step) :
    orderMerge ord newSteps oldSteps
      = ((ord.filter fun n => !isTeardown n).filterMap (pickStep oldSteps newSteps)
          ++ (ord.filter fun n => isTeardown n).filterMap (pickStep oldSteps newSteps),
         (ord.filter fun n => (pickStep oldSteps newSteps n).isNone).map skipWarning) := by
  unfold orderMerge pickStep
  rw [orderWalk_eq]

/-- Claim C3 (counterexample): in wrap mode, a parent-only teardown step that
sits before a non-teardown parent step stays in place, so the final steps
list has a teardown step before a non-teardown step. -/
theorem teardown_placement_counterexample :
    teardownsLast ((merge { steps := [⟨"teardown-x", "a", false⟩, ⟨"main", "b", false⟩] }
      { steps := [⟨"main", "c", false⟩] } true).1.steps) = false := by
  rfl

/-- Claim C3 (amended): teardown steps are always placed after all
non-teardown steps in the final steps list in order mode; in wrap mode this
holds provided the child defines every teardown-named step of the parent
(a parent-only teardown step remains at its position in the walk). -/
theorem teardown_placement_amended (newJob oldJob : JobConfig)
    (h : oldJob.order = none →
      ∀ y ∈ newJob.steps, isTeardown y.name = true →
        (findStep oldJob.steps y.name).isSome = true) :
    teardownsLast ((merge newJob oldJob true).1.steps) = true := by
  have hFo : ∀ n x, findStep oldJob.steps n = some x → x.name = n :=
    fun _ _ hx => findStep_name hx
  have hFn : ∀ n x, findStep newJob.steps n = some x → x.name = n :=
    fun _ _ hx => findStep_name hx
  rcases ho : oldJob.order with _ | ord
  · have hh := h ho
    by_cases he : oldJob.steps.isEmpty
    · have hsteps : (merge newJob oldJob true).1.steps = newJob.steps := by
        simp [merge, ho, he, mergeFields]
      rw [hsteps]
      have hempty : oldJob.steps = [] := List.isEmpty_iff.mp he
      have hall : ∀ x ∈ newJob.steps, isTeardown x.name = false := by
        intro x hx
        cases hxt : isTeardown x.name
        · rfl
        · have hcon := hh x hx hxt
          rw [hempty] at hcon
          simp [findStep] at hcon
      have := teardownsLast_append newJob.steps [] hall (fun x hx => absurd hx (by simp))
      simpa using this
    · have hsteps : (merge newJob oldJob true).1.steps
          = wrapMerge newJob.steps oldJob.steps := by
        simp [merge, ho, he]
      rw [hsteps]
      unfold wrapMerge
      exact teardownsLast_append _ _
        (wrapWalk_no_teardown hFo newJob.steps hh)
        (wrapTeardowns_teardown oldJob.steps)
  · have hsteps : (merge newJob oldJob true).1.steps
        = (orderMerge ord newJob.steps oldJob.steps).1 := by
      simp [merge, ho]
    have hchar : (orderMerge ord newJob.steps oldJob.steps).1
        = (ord.filter fun n => !isTeardown n).filterMap
            (pickF (findStep oldJob.steps) (findStep newJob.steps))
          ++ (ord.filter fun n => isTeardown n).filterMap
            (pickF (findStep oldJob.steps) (findStep newJob.steps)) := by
      unfold orderMerge
      rw [orderWalk_eq]
    rw [hsteps, hchar]
    exact teardownsLast_append _ _
      (filterMap_pick_no_teardown (fun n x hx => pickF_name hFo hFn hx) ord)
      (filterMap_pick_teardown (fun n x hx => pickF_name hFo hFn hx) ord)

theorem teardown_placement_amended_witness :
    teardownsLast ((merge { steps := [⟨"teardown-clean", "rm", false⟩, ⟨"test", "run", false⟩] }
      { order := some ["test", "teardown-clean"], steps := [⟨"test", "npm", false⟩] }
      true).1.steps) = true :=
  teardown_placement_amended
    { steps := [⟨"teardown-clean", "rm", false⟩, ⟨"test", "run", false⟩] }
    { order := some ["test", "teardown-clean"], steps := [⟨"test", "npm", false⟩] }
    (by decide)

/-- Claim C4: the merged `parameters` map is the key-wise union of the
parent's and the child's maps, the child's value winning on a duplicate
key (spec-modelled `parameters` merge). -/
theorem parameters_child_wins (parent child : List (String × String)) (k : String)
    (hc : (child.map Prod.fst).Nodup) :
    getKey (mergeParameters parent child) k
      = match getKey child k with
        | some v => some v
        | none => getKey parent k := by
  unfold mergeParameters
  rw [getKey_objAssign, getLastKey_eq_getKey _ _ hc]

theorem parameters_child_wins_witness :
    getKey (mergeParameters [("a", "1"), ("b", "2")] [("b", "3"), ("c", "4")]) "b"
      = some "3" :=
  parameters_child_wins [("a", "1"), ("b", "2")] [("b", "3"), ("c", "4")] "b" (by decide)

/-- Claim C5 (counterexample): a config with a non-empty `order` and no
`template` is not returned unchanged — the `order` field is stripped and a
warning is emitted. -/
theorem noop_composition_counterexample :
    flattenTemplate { config := { order := some ["x"] } } none
      ≠ .ok ({ config := { order := some ["x"] } }, ([] : List String)) := by
  intro h
  have hcomp : flattenTemplate { config := { order := some ["x"] } } none
      = .ok ({ config := { order := none } }, [orderWarning]) := rfl
  rw [hcomp] at h
  have h2 := Except.ok.inj h
  have h3 := congrArg Prod.snd h2
  exact List.cons_ne_nil _ _ h3

/-- Claim C5 (amended): composition is a no-op — the flattened config equals
the input and no warnings are produced — for every config with no `template`
reference and no (or an empty) `order` list. -/
theorem noop_composition_amended (templateObj : TemplateObj)
    (store : Option (Option Template))
    (ht : templateObj.config.template = none)
    (ho : templateObj.config.order = none ∨ templateObj.config.order = some []) :
    flattenTemplate templateObj store = .ok (templateObj, []) := by
  have hempty : ((templateObj.config.order).getD []).isEmpty = true := by
    rcases ho with ho | ho <;> rw [ho] <;> rfl
  cases store with
  | none => simp [flattenTemplate, hempty, ht, jsTruthy]
  | some resolved => simp [flattenTemplate, hempty, ht, jsTruthy]

theorem noop_composition_amended_witness :
    flattenTemplate { config := { image := some "node:18" } } none
      = .ok ({ config := { image := some "node:18" } }, []) :=
  noop_composition_amended { config := { image := some "node:18" } } none rfl (Or.inl rfl)

/-- Claim C6: the merged `secrets` and `sourcePaths` lists are exactly the
set unions of the two sides — an element is present iff it was present on
either side, duplicates are removed, and the result is the deduplicated
parent list with child elements appended. -/
theorem secrets_sourcepaths_set_union (newJob oldJob : JobConfig) (ft : Bool) :
    (∀ x, x ∈ (merge newJob oldJob ft).1.secrets
        ↔ x ∈ newJob.secrets ∨ x ∈ oldJob.secrets)
    ∧ (merge newJob oldJob ft).1.secrets.Nodup
    ∧ (∃ t, (merge newJob oldJob ft).1.secrets = jsSet newJob.secrets ++ t
        ∧ ∀ x ∈ t, x ∈ oldJob.secrets)
    ∧ (∀ x, x ∈ normSP (merge newJob oldJob ft).1.sourcePaths
        ↔ x ∈ normSP newJob.sourcePaths ∨ x ∈ normSP oldJob.sourcePaths)
    ∧ (normSP (merge newJob oldJob ft).1.sourcePaths).Nodup
    ∧ (∃ t, normSP (merge newJob oldJob ft).1.sourcePaths
          = jsSet (normSP newJob.sourcePaths) ++ t
        ∧ ∀ x ∈ t, x ∈ normSP oldJob.sourcePaths) := by
  obtain ⟨h1, h2, -⟩ := merge_fields_proj newJob oldJob ft
  have h2' : normSP (merge newJob oldJob ft).1.sourcePaths
      = jsSet (normSP newJob.sourcePaths ++ normSP oldJob.sourcePaths) := by
    rw [h2]
    rfl
  rw [h1, h2']
  obtain ⟨s1, s2, s3⟩ := jsSet_union_spec newJob.secrets oldJob.secrets
  obtain ⟨p1, p2, p3⟩ := jsSet_union_spec (normSP newJob.sourcePaths) (normSP oldJob.sourcePaths)
  exact ⟨s1, s2, s3, p1, p2, p3⟩

/-- Claim C7: after merging a resolved parent template, the environment
contains the four injected template-identity entries — full name (namespace
omitted when falsy or default), name, namespace (empty when none), version
— except that a key the child's own environment defines keeps the child's
value. -/
theorem environment_injection (tpl : Template) (oldJob : JobConfig)
    (hc : (oldJob.environment.map Prod.fst).Nodup) :
    getKey (mergeTemplateIntoJobOk tpl oldJob).1.environment "SD_TEMPLATE_FULLNAME"
        = some ((getKey oldJob.environment "SD_TEMPLATE_FULLNAME").getD (fullTemplateName tpl))
    ∧ getKey (mergeTemplateIntoJobOk tpl oldJob).1.environment "SD_TEMPLATE_NAME"
        = some ((getKey oldJob.environment "SD_TEMPLATE_NAME").getD tpl.name)
    ∧ getKey (mergeTemplateIntoJobOk tpl oldJob).1.environment "SD_TEMPLATE_NAMESPACE"
        = some ((getKey oldJob.environment "SD_TEMPLATE_NAMESPACE").getD ((tpl.nspace).getD ""))
    ∧ getKey (mergeTemplateIntoJobOk tpl oldJob).1.environment "SD_TEMPLATE_VERSION"
        = some ((getKey oldJob.environment "SD_TEMPLATE_VERSION").getD tpl.version) := by
  rw [mergeTemplateIntoJobOk_env]
  refine ⟨?_, ?_, ?_, ?_⟩
  · exact getKey_env_final _ _ tpl _ _ hc (by simp [injectedPairs, getLastKey])
  · exact getKey_env_final _ _ tpl _ _ hc (by simp [injectedPairs, getLastKey])
  · exact getKey_env_final _ _ tpl _ _ hc (by simp [injectedPairs, getLastKey])
  · exact getKey_env_final _ _ tpl _ _ hc (by simp [injectedPairs, getLastKey])

theorem environment_injection_witness :
    getKey (mergeTemplateIntoJobOk
        { name := "n", nspace := some "ns", version := "2",
          config := { environment := [("A", "p")] } }
        { environment := [("SD_TEMPLATE_NAME", "override")] }).1.environment
        "SD_TEMPLATE_FULLNAME"
      = some ((getKey [("SD_TEMPLATE_NAME", "override")] "SD_TEMPLATE_FULLNAME").getD
          (fullTemplateName
            { name := "n", nspace := some "ns", version := "2",
              config := { environment := [("A", "p")] } })) :=
  (environment_injection
    { name := "n", nspace := some "ns", version := "2",
      config := { environment := [("A", "p")] } }
    { environment := [("SD_TEMPLATE_NAME", "override")] } (by decide)).1

/-- Claim C8: a valid config declaring a non-empty `order` but no `template`
never fails — `order` is removed, the exact warning is returned, and
processing continues normally. -/
theorem order_without_template_warning (templateObj : TemplateObj)
    (store : Option (Option Template)) (ord : List String)
    (ho : templateObj.config.order = some ord) (hne : ord ≠ [])
    (ht : templateObj.config.template = none) :
    flattenTemplate templateObj store
      = .ok ({ templateObj with config := { templateObj.config with order := none } },
             [orderWarning]) := by
  have hempty : ((templateObj.config.order).getD []).isEmpty = false := by
    rw [ho]
    simpa using List.isEmpty_iff.not.mpr hne
  cases store with
  | none => simp [flattenTemplate, hempty, ht, jsTruthy]
  | some resolved => simp [flattenTemplate, hempty, ht, jsTruthy]

theorem order_without_template_warning_witness :
    flattenTemplate { config := { order := some ["x"] } } none
      = .ok ({ config := { order := none } }, [orderWarning]) :=
  order_without_template_warning { config := { order := some ["x"] } } none ["x"]
    rfl (by decide) rfl

/-- Claim C10: a scalar `sourcePaths` value on either side is wrapped into a
one-element list before the set union, so the merge is total and the scalar
occurs exactly once in the merged list. -/
theorem scalar_sourcepaths_normalized (newJob oldJob : JobConfig) (s : String) (ft : Bool) :
    (oldJob.sourcePaths = some (.scalar s) →
      (merge newJob oldJob ft).1.sourcePaths
          = some (.list (jsSet (normSP newJob.sourcePaths ++ [s])))
        ∧ s ∈ normSP (merge newJob oldJob ft).1.sourcePaths
        ∧ (normSP (merge newJob oldJob ft).1.sourcePaths).count s = 1)
    ∧ (newJob.sourcePaths = some (.scalar s) →
      (merge newJob oldJob ft).1.sourcePaths
          = some (.list (jsSet ([s] ++ normSP oldJob.sourcePaths)))
        ∧ s ∈ normSP (merge newJob oldJob ft).1.sourcePaths
        ∧ (normSP (merge newJob oldJob ft).1.sourcePaths).count s = 1) := by
  obtain ⟨-, h2, -⟩ := merge_fields_proj newJob oldJob ft
  constructor
  · intro ho
    have heq : (merge newJob oldJob ft).1.sourcePaths
        = some (.list (jsSet (normSP newJob.sourcePaths ++ [s]))) := by
      rw [h2, ho]
      rfl
    have hmem : s ∈ normSP (merge newJob oldJob ft).1.sourcePaths := by
      rw [heq]
      exact (mem_jsSet _ _).mpr (List.mem_append_right _ (List.mem_singleton.mpr rfl))
    refine ⟨heq, hmem, ?_⟩
    apply List.count_eq_one_of_mem _ hmem
    rw [heq]
    exact nodup_jsSet _
  · intro hn
    have heq : (merge newJob oldJob ft).1.sourcePaths
        = some (.list (jsSet ([s] ++ normSP oldJob.sourcePaths))) := by
      rw [h2, hn]
      rfl
    have hmem : s ∈ normSP (merge newJob oldJob ft).1.sourcePaths := by
      rw [heq]
      exact (mem_jsSet _ _).mpr (List.mem_append_left _ (List.mem_singleton.mpr rfl))
    refine ⟨heq, hmem, ?_⟩
    apply List.count_eq_one_of_mem _ hmem
    rw [heq]
    exact nodup_jsSet _

theorem scalar_sourcepaths_normalized_witness :
    ((merge { sourcePaths := some (.list ["a", "b"]) } { sourcePaths := some (.scalar "a") }
        false).1.sourcePaths
        = some (.list (jsSet (normSP (some (.list ["a", "b"])) ++ ["a"])))
      ∧ "a" ∈ normSP (merge { sourcePaths := some (.list ["a", "b"]) }
          { sourcePaths := some (.scalar "a") } false).1.sourcePaths
      ∧ (normSP (merge { sourcePaths := some (.list ["a", "b"]) }
          { sourcePaths := some (.scalar "a") } false).1.sourcePaths).count "a" = 1) :=
  (scalar_sourcepaths_normalized { sourcePaths := some (.list ["a", "b"]) }
    { sourcePaths := some (.scalar "a") } "a" false).1 rfl

/-- Claim C1: for any parent step marked locked, in any successful merge
(order or wrap mode) the command for that step name in the merged steps
list is the parent's command regardless of what the child supplies, and a
conflict warning is emitted whenever the child attempted the override.
Assumes step names unique within the parent's list and that the locked name
is not also the `pre<X>`/`post<X>` hook name of another parent step (a
child-supplied hook of that name would be injected ahead of it). -/
theorem locked_step_command_preserved (newJob oldJob : JobConfig) (s : Step)
    (hs : s ∈ newJob.steps) (hl : s.locked = true)
    (hnd : (newJob.steps.map Step.name).Nodup)
    (hhook : ∀ y ∈ newJob.steps, ¬"pre" ++ y.name = s.name ∧ ¬"post" ++ y.name = s.name)
    (hok : mergeOk (mergeL newJob oldJob true) = true) :
    stepCommand (mergedStepsOf (mergeL newJob oldJob true)) s.name = some s.command
    ∧ ((findStep oldJob.steps s.name).isSome = true →
        lockWarning (templateRefString oldJob.template) s.name
          ∈ warningsOf (mergeL newJob oldJob true)) := by
  have hFo : ∀ n x, findStep oldJob.steps n = some x → x.name = n :=
    fun _ _ hx => findStep_name hx
  have hFn : ∀ n x, findStep newJob.steps n = some x → x.name = n :=
    fun _ _ hx => findStep_name hx
  have hfind : findStep newJob.steps s.name = some s := findStep_of_nodup _ _ hnd hs
  rcases ho : oldJob.order with _ | ord
  · cases he : oldJob.steps.isEmpty with
    | true =>
      have hml := mergeL_skip newJob oldJob ho he
      have hsteps : mergedStepsOf (mergeL newJob oldJob true) = newJob.steps := by
        rw [hml]
        rfl
      constructor
      · rw [hsteps]
        unfold stepCommand
        rw [find?_unique newJob.steps s.name s
          (fun x hx hxn => name_inj hnd x hx s hs hxn) ⟨s, hs, rfl⟩]
        rfl
      · intro hold
        rw [List.isEmpty_iff.mp he] at hold
        simp [findStep] at hold
    | false =>
      have hml := mergeL_wrap newJob oldJob ho he
      have hsteps : mergedStepsOf (mergeL newJob oldJob true)
          = (wrapWalkL (templateRefString oldJob.template)
              (findStep oldJob.steps) newJob.steps).1
            ++ oldJob.steps.filter (fun x => isTeardown x.name) := by
        rw [hml]
        rfl
      have hwarns : warningsOf (mergeL newJob oldJob true)
          = (wrapWalkL (templateRefString oldJob.template)
              (findStep oldJob.steps) newJob.steps).2 := by
        rw [hml]
        rfl
      obtain ⟨a, b, hdecomp, hnames⟩ :=
        wrapWalkL_locked_decomp (templateRefString oldJob.template) hFo
          newJob.steps s hnd hs hl hhook
      constructor
      · rw [hsteps]
        unfold stepCommand
        have hfw : (wrapWalkL (templateRefString oldJob.template)
            (findStep oldJob.steps) newJob.steps).1.find? (fun x => x.name == s.name)
              = some s := by
          rw [hdecomp]
          exact find?_prefix_decomp a b s hnames
        rw [find?_append_of_some _ hfw]
        rfl
      · intro hold
        rw [hwarns]
        exact wrapWalkL_locked_warning (templateRefString oldJob.template) _
          newJob.steps s hs hl hold
  · have hlockmem : s.name ∈ lockedNames newJob.steps := mem_lockedNames hs hl
    cases hmiss : ((lockedNames newJob.steps).filter (fun n => !(ord.contains n))).isEmpty with
    | false =>
      have hcon : mergeOk (mergeL newJob oldJob true) = false := by
        rw [mergeL_order newJob oldJob ord ho,
            orderMergeLocked_error _ ord newJob.steps oldJob.steps hmiss]
        rfl
      rw [hcon] at hok
      exact Bool.noConfusion hok
    | true =>
      have hordmem : s.name ∈ ord := by
        have hnil := List.isEmpty_iff.mp hmiss
        have hall := List.filter_eq_nil_iff.mp hnil s.name hlockmem
        simp at hall
        simpa using hall
      have hpick_s : pickL (lockedNames newJob.steps) (findStep oldJob.steps)
          (findStep newJob.steps) s.name = some s := by
        unfold pickL
        rw [if_pos hlockmem]
        exact hfind
      have hco := orderMergeLocked_ok (templateRefString oldJob.template) ord
        newJob.steps oldJob.steps hmiss
      have hsteps : mergedStepsOf (mergeL newJob oldJob true)
          = (orderWalkL (templateRefString oldJob.template) (lockedNames newJob.steps)
              (findStep oldJob.steps) (findStep newJob.steps) ord).1
            ++ (orderWalkL (templateRefString oldJob.template) (lockedNames newJob.steps)
              (findStep oldJob.steps) (findStep newJob.steps) ord).2.1 := by
        rw [mergeL_order newJob oldJob ord ho, hco]
        rfl
      have hwarns : warningsOf (mergeL newJob oldJob true)
          = (orderWalkL (templateRefString oldJob.template) (lockedNames newJob.steps)
              (findStep oldJob.steps) (findStep newJob.steps) ord).2.2 := by
        rw [mergeL_order newJob oldJob ord ho, hco]
        rfl
      rw [orderWalkL_eq] at hsteps hwarns
      have hall : ∀ x ∈ (ord.filter fun n => !isTeardown n).filterMap
            (pickL (lockedNames newJob.steps) (findStep oldJob.steps) (findStep newJob.steps))
          ++ (ord.filter fun n => isTeardown n).filterMap
            (pickL (lockedNames newJob.steps) (findStep oldJob.steps) (findStep newJob.steps)),
          x.name = s.name → x = s := by
        intro x hx hxn
        rcases List.mem_append.mp hx with hx | hx <;>
        · obtain ⟨n, hn, hp⟩ := List.mem_filterMap.mp hx
          have hnn : n = s.name := (pickL_name hFo hFn hp).symm.trans hxn
          rw [hnn, hpick_s] at hp
          exact (Option.some.inj hp).symm
      have hex : ∃ x ∈ (ord.filter fun n => !isTeardown n).filterMap
            (pickL (lockedNames newJob.steps) (findStep oldJob.steps) (findStep newJob.steps))
          ++ (ord.filter fun n => isTeardown n).filterMap
            (pickL (lockedNames newJob.steps) (findStep oldJob.steps) (findStep newJob.steps)),
          x.name = s.name := by
        cases hts : isTeardown s.name
        · exact ⟨s, List.mem_append_left _ (List.mem_filterMap.mpr
            ⟨s.name, List.mem_filter.mpr ⟨hordmem, by simp [hts]⟩, hpick_s⟩), rfl⟩
        · exact ⟨s, List.mem_append_right _ (List.mem_filterMap.mpr
            ⟨s.name, List.mem_filter.mpr ⟨hordmem, by simp [hts]⟩, hpick_s⟩), rfl⟩
      constructor
      · rw [hsteps]
        unfold stepCommand
        rw [find?_unique _ s.name s hall hex]
        rfl
      · intro hold
        rw [hwarns]
        refine List.mem_filterMap.mpr ⟨s.name, hordmem, ?_⟩
        unfold orderWarnL
        simp [hpick_s, hlockmem, hold]

theorem locked_step_command_preserved_witness :
    stepCommand (mergedStepsOf (mergeL exParentJob exChildJob true)) "build" = some "pb"
    ∧ lockWarning (templateRefString exChildJob.template) "build"
        ∈ warningsOf (mergeL exParentJob exChildJob true) :=
  ⟨(locked_step_command_preserved exParentJob exChildJob ⟨"build", "pb", true⟩
      (by decide) rfl (by decide) (by decide) (by decide)).1,
   (locked_step_command_preserved exParentJob exChildJob ⟨"build", "pb", true⟩
      (by decide) rfl (by decide) (by decide) (by decide)).2 (by decide)⟩

/-- Claim C2: when the child declares `order` and a resolved parent template
has a locked step whose name is missing from that `order` list, composition
fails with the `CompositionError` naming the parent reference and the
missing locked step names — it is an error, never a warning
(spec-modelled locked-step merge). -/
theorem order_missing_locked_steps_error (tpl : Template) (oldJob : JobConfig)
    (s : Step) (ord : List String)
    (hs : s ∈ tpl.config.steps) (hl : s.locked = true)
    (ho : oldJob.order = some ord) (hmiss : s.name ∉ ord) :
    mergeTemplateIntoJobL (some tpl) oldJob
        = .error (lockedStepsError (templateRefString oldJob.template)
            ((lockedNames tpl.config.steps).filter (fun n => !(ord.contains n))))
    ∧ s.name ∈ (lockedNames tpl.config.steps).filter (fun n => !(ord.contains n)) := by
  have hmem : s.name ∈ (lockedNames tpl.config.steps).filter (fun n => !(ord.contains n)) := by
    refine List.mem_filter.mpr ⟨mem_lockedNames hs hl, ?_⟩
    simpa using hmiss
  have hne : ((lockedNames tpl.config.steps).filter
      (fun n => !(ord.contains n))).isEmpty = false := by
    rcases hflt : (lockedNames tpl.config.steps).filter (fun n => !(ord.contains n))
      with _ | ⟨a, as⟩
    · rw [hflt] at hmem
      cases hmem
    · rfl
  refine ⟨?_, hmem⟩
  have h1 : mergeTemplateIntoJobL (some tpl) oldJob
      = match mergeL { tpl.config with environment := injectEnv tpl tpl.config.environment }
          oldJob true with
        | .error e => .error e
        | .ok r => .ok ({ r.1 with template := none, templateId := some tpl.id },
            tpl.images, r.2) := rfl
  have h2 : orderMergeLocked (templateRefString oldJob.template) ord
      ({ tpl.config with environment := injectEnv tpl tpl.config.environment }
        : JobConfig).steps oldJob.steps
      = .error (lockedStepsError (templateRefString oldJob.template)
          ((lockedNames tpl.config.steps).filter (fun n => !(ord.contains n)))) :=
    orderMergeLocked_error _ _ _ _ hne
  rw [h1, mergeL_order _ _ ord ho, h2]

theorem order_missing_locked_steps_error_witness :
    mergeTemplateIntoJobL (some exLockedTpl) exOrderChild
        = .error (lockedStepsError (templateRefString exOrderChild.template)
            ((lockedNames exLockedTpl.config.steps).filter
              (fun n => !((["test"] : List String).contains n))))
    ∧ "security" ∈ (lockedNames exLockedTpl.config.steps).filter
        (fun n => !((["test"] : List String).contains n)) :=
  order_missing_locked_steps_error exLockedTpl exOrderChild
    ⟨"security", "scan", true⟩ ["test"] (by decide) rfl rfl (by decide)

end TemplateValidator
